import Mathlib

/-!
Shallow embedding of the character-sequence dataset pipeline of the
notebook "02 - Classifier with LSTM - resolvido.ipynb": the class
NameDataset (alphabet, corpus loading, name/tensor encoding and decoding,
item access) and the DataLoader collate function collate_fn.

Tensors in the source hold only the values 0 and 1 (one-hot rows produced
by name_to_tensor, and zero padding produced by pad_sequence with
padding_value 0), so a tensor is modelled as a shape together with a flat
list of natural numbers; argmax and comparisons on such values agree with
the floating-point originals.
-/

namespace NameDataset

/-- Python dict insertion: if the key is present its value is replaced in
place, otherwise the pair is appended (Python dicts preserve insertion
order). -/
def dictInsert {α β : Type} [DecidableEq α] (d : List (α × β)) (k : α) (v : β) :
    List (α × β) :=
  if d.any (fun p => decide (p.1 = k)) then
    d.map (fun p => if p.1 = k then (k, v) else p)
  else d ++ [(k, v)]

/-- Python dict lookup d[k] as an Option (None models a KeyError). -/
def dictGet? {α β : Type} [DecidableEq α] (d : List (α × β)) (k : α) : Option β :=
  (d.find? (fun p => decide (p.1 = k))).map (fun p => p.2)

/-- self.all_letters = "-" + string.ascii_letters + " .,;'" (the final
character, code 39, is the ASCII apostrophe). -/
def all_letters : List Char :=
  ("-abcdefghijklmnopqrstuvwxyzABCDEFGHIJKLMNOPQRSTUVWXYZ .,;").toList
    ++ [Char.ofNat 39]

/-- self.n_letters = len(self.all_letters). -/
def n_letters : Nat := all_letters.length

/-- self.NULL_IDX = 0. -/
def NULL_IDX : Nat := 0

/-- self.letter2idx = {letter: idx for idx, letter in enumerate(self.all_letters)}. -/
def letter2idx : List (Char × Nat) :=
  all_letters.enum.foldl (fun d p => dictInsert d p.2 p.1) []

/-- self.letter2idx.get(letter, self.NULL_IDX): the index a character is
encoded to. -/
def letterIndex (c : Char) : Nat := (dictGet? letter2idx c).getD NULL_IDX

/-- A tensor: a shape (list of dimension extents) and its values in
row-major order. -/
structure Tensor where
  shape : List Nat
  data : List Nat
deriving DecidableEq, Repr

/-- Row of extent n_letters that is zero except for a single 1 at
position k: the effect of tensor[li][0][k] = 1 on a zero row. -/
def oneHot (k : Nat) : List Nat :=
  (List.range n_letters).map (fun j => if j = k then 1 else 0)

/-- name_to_tensor: a zero tensor of shape (len(name), 1, n_letters) where
row li holds a 1 at letter2idx.get(letter, NULL_IDX). -/
def name_to_tensor (name : List Char) : Tensor :=
  ⟨[name.length, 1, n_letters], (name.map (fun c => oneHot (letterIndex c))).flatten⟩

/-- torch.argmax on one row: index of the first maximal value (ties are
only reached here on all-zero padding rows, where the result is 0). -/
def argmaxFirst (l : List Nat) : Nat :=
  (l.enum.foldl (fun best p => if best.2 < p.2 then p else best) (0, l.headD 0)).1

/-- torch.argmax(tensor, dim=-1): the rows of the tensor along its last
dimension, each reduced by argmaxFirst below. -/
def rows (t : Tensor) : List (List Nat) :=
  let C := t.shape.getLastD 0
  (List.range (t.data.length / C)).map (fun r => (t.data.drop (r * C)).take C)

/-- The joining step of tensor_to_name, building the string from
self.all_letters[i] for each i in idx, left to right; a position outside
the alphabet raises IndexError. -/
def decodeIndices : List Nat → Except String (List Char)
  | [] => Except.ok []
  | i :: rest =>
    match all_letters[i]? with
    | some c => (decodeIndices rest).map (fun cs => c :: cs)
    | none => Except.error "IndexError"

/-- tensor_to_name: argmax over the last dimension, then index
all_letters at each resulting position. -/
def tensor_to_name (t : Tensor) : Except String (List Char) :=
  decodeIndices ((rows t).map argmaxFirst)

/-- torch.nn.utils.rnn.pad_sequence(names, batch_first=True,
padding_value=NULL_IDX): stacks the tensors along a new first dimension,
right-padding each along its own first dimension to the longest with the
padding value 0. -/
def pad_sequence (ts : List Tensor) : Tensor :=
  let maxL := (ts.map (fun t => t.shape.headD 0)).foldr max 0
  let trailing := (ts.headD ⟨[], []⟩).shape.tail
  let rowSize := trailing.prod
  ⟨ts.length :: maxL :: trailing,
   (ts.map (fun t =>
     t.data ++ List.replicate ((maxL - t.shape.headD 0) * rowSize) NULL_IDX)).flatten⟩

/-- Tensor.squeeze() with no argument: removes every dimension of
extent 1 from the shape. -/
def squeeze (t : Tensor) : Tensor :=
  ⟨t.shape.filter (fun d => d != 1), t.data⟩

/-- torch.cat along dimension 0. -/
def cat (ts : List Tensor) : Tensor :=
  ⟨((ts.map (fun t => t.shape.headD 0)).sum) :: (ts.headD ⟨[], []⟩).shape.tail,
   (ts.map (fun t => t.data)).flatten⟩

/-- collate_fn: unzip the (name, category) pairs, pad and squeeze the
names, concatenate the category tensors. -/
def collate_fn (batch : List (Tensor × Tensor)) : Tensor × Tensor :=
  (squeeze (pad_sequence (batch.map (fun p => p.1))),
   cat (batch.map (fun p => p.2)))

/-- Indexing a tensor on its first dimension: t[i]. -/
def index0 (t : Tensor) (i : Nat) : Tensor :=
  let rs := t.shape.tail.prod
  ⟨t.shape.tail, (t.data.drop (i * rs)).take rs⟩

/-- Slicing a tensor on its first dimension: t[:k]. -/
def slice0 (t : Tensor) (k : Nat) : Tensor :=
  let rs := t.shape.tail.prod
  ⟨min k (t.shape.headD 0) :: t.shape.tail, t.data.take (k * rs)⟩

/-- One file matched by the glob: its category (the base name of the file
without extension, as computed by os.path.splitext(os.path.basename(...)))
and its full text content. -/
structure SourceFile where
  category : String
  content : String
deriving DecidableEq, Repr

/-- Python str.strip() whitespace test (ASCII whitespace; the inputs in
this development contain only spaces, tabs and newlines). -/
def pyWs (c : Char) : Bool :=
  c = ' ' || c = Char.ofNat 9 || c = Char.ofNat 10 || c = Char.ofNat 13
    || c = Char.ofNat 11 || c = Char.ofNat 12

/-- Python str.strip(): drop whitespace from both ends of the whole
string. -/
def pyStrip (s : List Char) : List Char :=
  ((s.dropWhile pyWs).reverse.dropWhile pyWs).reverse

/-- Python str.split(chr(10)): split on newline keeping empty pieces; the
empty string yields one empty piece. -/
def splitNl : List Char → List (List Char)
  | [] => [[]]
  | c :: rest =>
    let r := splitNl rest
    if c = Char.ofNat 10 then [] :: r
    else (c :: r.headD []) :: r.tail

/-- NFD decomposition of one character. ASCII characters decompose to
themselves; the table covers the accented Latin letters used in this
development, each decomposing to its base letter followed by a combining
mark. -/
def nfdChar (c : Char) : List Char :=
  if c = Char.ofNat 0xE9 then [Char.ofNat 0x65, Char.ofNat 0x301]
  else if c = Char.ofNat 0xE8 then [Char.ofNat 0x65, Char.ofNat 0x300]
  else if c = Char.ofNat 0xE1 then [Char.ofNat 0x61, Char.ofNat 0x301]
  else if c = Char.ofNat 0xE0 then [Char.ofNat 0x61, Char.ofNat 0x300]
  else if c = Char.ofNat 0xF3 then [Char.ofNat 0x6F, Char.ofNat 0x301]
  else if c = Char.ofNat 0xFC then [Char.ofNat 0x75, Char.ofNat 0x308]
  else if c = Char.ofNat 0xF1 then [Char.ofNat 0x6E, Char.ofNat 0x303]
  else if c = Char.ofNat 0xE7 then [Char.ofNat 0x63, Char.ofNat 0x327]
  else [c]

/-- Unicode category Mn (nonspacing combining mark), restricted to the
combining marks producible by nfdChar above. -/
def isMn (c : Char) : Bool :=
  (0x300 ≤ c.toNat && c.toNat ≤ 0x36F)

/-- unicode_to_ascii: NFD-normalize and drop the combining marks. -/
def unicode_to_ascii (s : List Char) : List Char :=
  ((s.map nfdChar).flatten).filter (fun c => !(isMn c))

/-- The three values built by load_data: cat2idx, idx2cat and the item
list data. -/
structure Corpus where
  cat2idx : List (String × Nat)
  idx2cat : List (Nat × String)
  data : List (List Char × String)
deriving DecidableEq, Repr

/-- The items the inner loop of load_data appends for one file: one per
line of the whole-content-stripped, newline-split file text, each line
passed through unicode_to_ascii. -/
def fileItems (f : SourceFile) : List (List Char × String) :=
  (splitNl (pyStrip f.content.toList)).map
    (fun line => (unicode_to_ascii line, f.category))

/-- Body of the load_data loop for one enumerated file: register the
category in both directions and append the file's items. -/
def processFile (acc : Corpus) (p : Nat × SourceFile) : Corpus :=
  ⟨dictInsert acc.cat2idx p.2.category p.1,
   dictInsert acc.idx2cat p.1 p.2.category,
   acc.data ++ fileItems p.2⟩

/-- load_data: fold the loop body over the enumerated glob result (the
input list models the list of files the glob pattern matched, in
enumeration order). -/
def load_data (files : List SourceFile) : Corpus :=
  files.enum.foldl processFile ⟨[], [], []⟩

/-- Modelled from the spec: the corpus-load operation as the spec
describes it, failing with IOError when the pattern matches no files and
otherwise agreeing with load_data. Used only to compare the spec's error
behaviour with the code's. -/
def load_data_spec (files : List SourceFile) : Except String Corpus :=
  if files.isEmpty then Except.error "IOError" else Except.ok (load_data files)

/-- NameDataset.__getitem__: fetch the item, encode its name, and look the
category up in cat2idx; an out-of-range position or missing category
raises. -/
def getItem (ds : Corpus) (i : Nat) : Except String (Tensor × Tensor) :=
  match ds.data[i]? with
  | none => Except.error "IndexError"
  | some item =>
    match dictGet? ds.cat2idx item.2 with
    | none => Except.error "KeyError"
    | some ci => Except.ok (name_to_tensor item.1, ⟨[1], [ci]⟩)

end NameDataset

deriving instance DecidableEq for Except

namespace NameDataset

set_option maxRecDepth 8000 in
/-- Every key of letter2idx is an alphabet character. -/
theorem letter2idx_keys : ∀ p ∈ letter2idx, p.1 ∈ all_letters := by decide

/-- Data accumulated by the load_data loop: the fold only ever appends
each file's items to the data list. -/
theorem foldl_processFile_data (files : List SourceFile) (k : Nat) (acc : Corpus) :
    ((files.enumFrom k).foldl processFile acc).data =
      acc.data ++ (files.map fileItems).flatten := by
  induction files generalizing k acc with
  | nil => simp [List.enumFrom]
  | cons f rest ih =>
      simp [List.enumFrom, List.foldl_cons, ih, processFile, List.append_assoc]

set_option maxRecDepth 40000 in
/-- C7: for every character of the alphabet, encoding the one-character
string and decoding the result gives the character back. -/
theorem alphabet_roundtrip :
    ∀ c ∈ all_letters, tensor_to_name (name_to_tensor [c]) = Except.ok [c] := by
  decide

/-- Witness for alphabet_roundtrip at the alphabet character a. -/
theorem alphabet_roundtrip_witness :
    tensor_to_name (name_to_tensor [Char.ofNat 97]) = Except.ok [Char.ofNat 97] :=
  alphabet_roundtrip (Char.ofNat 97) (by decide)

/-- C8: a character outside the alphabet encodes, without error, to a
one-hot row at the sentinel index 0, and decoding that encoding gives the
sentinel character, the hyphen (code 45). -/
theorem unknown_char_fallback (c : Char) (h : c ∉ all_letters) :
    name_to_tensor [c] = Tensor.mk [1, 1, n_letters] (oneHot 0) ∧
    tensor_to_name (name_to_tensor [c]) = Except.ok [Char.ofNat 45] := by
  have hidx : letterIndex c = 0 := by
    have hnone : letter2idx.find? (fun p => decide (p.1 = c)) = none := by
      apply List.find?_eq_none.mpr
      intro p hp
      simp only [decide_eq_true_eq]
      intro hpc
      exact h (hpc ▸ letter2idx_keys p hp)
    simp [letterIndex, dictGet?, hnone, NULL_IDX]
  have h1 : name_to_tensor [c] = Tensor.mk [1, 1, n_letters] (oneHot 0) := by
    simp [name_to_tensor, hidx]
  refine ⟨h1, ?_⟩
  rw [h1]
  set_option maxRecDepth 40000 in decide

/-- Witness for unknown_char_fallback at the digit character 1 (code 49),
which is not in the alphabet. -/
theorem unknown_char_fallback_witness :
    name_to_tensor [Char.ofNat 49] = Tensor.mk [1, 1, n_letters] (oneHot 0) ∧
    tensor_to_name (name_to_tensor [Char.ofNat 49]) = Except.ok [Char.ofNat 45] :=
  unknown_char_fallback (Char.ofNat 49) (by decide)

/-- C9: decoding any index sequence containing a position outside the
range [0, n_letters) fails with IndexError; the offending index is never
clamped to a valid one. -/
theorem decode_out_of_range (idxs : List Nat) (h : ∃ i ∈ idxs, n_letters ≤ i) :
    decodeIndices idxs = Except.error "IndexError" := by
  induction idxs with
  | nil => simp at h
  | cons a l ih =>
      obtain ⟨i, hmem, hge⟩ := h
      rcases List.mem_cons.mp hmem with rfl | hl
      · have hnone : all_letters[i]? = none := List.getElem?_eq_none hge
        simp [decodeIndices, hnone]
      · by_cases ha : n_letters ≤ a
        · have hnone : all_letters[a]? = none := List.getElem?_eq_none ha
          simp [decodeIndices, hnone]
        · push_neg at ha
          have hsome : all_letters[a]? =
              some (all_letters.get ⟨a, ha⟩) := List.getElem?_eq_getElem ha
          simp [decodeIndices, hsome, ih ⟨i, hl, hge⟩, Except.map]

/-- Witness for decode_out_of_range at the singleton sequence holding
n_letters, the first out-of-range index. -/
theorem decode_out_of_range_witness :
    decodeIndices [n_letters] = Except.error "IndexError" :=
  decode_out_of_range [n_letters] ⟨n_letters, by decide, by decide⟩

end NameDataset

namespace NameDataset

/-- C1: a DataLoader batch of size 1 whose only item is the encoding of
the single-character name A collapses under collate_fn to a
one-dimensional tensor of extent n_letters: the bare squeeze() drops the
batch axis and the sequence axis together with the inner axis of
extent 1, contradicting the requirement that both be preserved (the
downstream classifier unpacks three dimensions from this tensor). -/
theorem collate_collapses_singleton :
    (collate_fn [(name_to_tensor [Char.ofNat 65], Tensor.mk [1] [0])]).1.shape
      = [n_letters] := by decide

/-- C2 counterexample: on a pattern matching zero files the load as the
spec describes it fails with IOError, while load_data as written returns
an empty corpus (no categories, no items) without any error. -/
theorem empty_glob_counterexample :
    load_data_spec [] = Except.error "IOError"
      ∧ load_data [] = Corpus.mk [] [] [] :=
  ⟨rfl, rfl⟩

/-- C2 amended: a pattern matching zero files is not an error; load_data
returns successfully with an empty corpus: empty category maps and an
empty item list. -/
theorem empty_glob_returns_empty_corpus :
    load_data [] = Corpus.mk [] [] []
      ∧ (load_data []).data.length = 0 ∧ (load_data []).cat2idx = [] :=
  ⟨rfl, rfl, rfl⟩

/-- C3 counterexample: a file whose content is "Smith \n\nJones" (an
interior trailing space and an interior empty line) loads to items whose
texts are "Smith " with its trailing space kept, the empty string, and
"Jones": lines are not stripped individually and the empty interior line
is not skipped, so the corpus contains an item whose text is empty. -/
theorem line_strip_counterexample :
    (load_data [SourceFile.mk "English" "Smith \n\nJones"]).data.map Prod.fst
        = [("Smith ").toList, [], ("Jones").toList]
      ∧ ([] : List Char) ∈
        (load_data [SourceFile.mk "English" "Smith \n\nJones"]).data.map Prod.fst := by
  refine ⟨by decide, ?_⟩
  decide

/-- C3 amended: load_data strips whitespace from both ends of the whole
file content (not from each line), splits on newlines, and keeps every
resulting line as one item, empty lines included; so the corpus is
exactly the concatenation, over the files, of one item per post-split
line, and a file with leading whitespace, an interior trailing space and
an interior empty line demonstrates that interior lines are kept
unstripped and interior empty lines become empty-text items. -/
theorem load_data_keeps_interior_lines :
    (∀ files : List SourceFile,
      (load_data files).data = (files.map fileItems).flatten)
    ∧ (load_data [SourceFile.mk "English" "  Smith \n\nJones\n"]).data
        = [(("Smith ").toList, "English"), ([], "English"),
           (("Jones").toList, "English")] := by
  constructor
  · intro files
    have h := foldl_processFile_data files 0 (Corpus.mk [] [] [])
    simpa [load_data, List.enum] using h
  · decide

/-- C4 counterexample: the hyphen (code 45) is the alphabet member at
index 0, it survives normalization unchanged (it can occur in a
normalized input text, for example in hyphenated surnames), and it
encodes to 0, so the claimed distinctness of the sentinel from every
real character fails. -/
theorem sentinel_hyphen_counterexample :
    Char.ofNat 45 ∈ all_letters
      ∧ all_letters[0]? = some (Char.ofNat 45)
      ∧ unicode_to_ascii [Char.ofNat 45] = [Char.ofNat 45]
      ∧ letterIndex (Char.ofNat 45) = 0 := by
  refine ⟨by decide, by decide, by decide, ?_⟩
  set_option maxRecDepth 8000 in decide

set_option maxRecDepth 8000 in
/-- C4 amended: index 0 of the alphabet is the hyphen, itself a real
admissible character; every alphabet character other than the hyphen
encodes to a nonzero index, so a 0 in an encoded sequence is ambiguous
between a literal hyphen, an unknown character and padding. -/
theorem nonzero_except_hyphen :
    ∀ c ∈ all_letters, c ≠ Char.ofNat 45 → letterIndex c ≠ 0 := by decide

/-- Witness for nonzero_except_hyphen at the alphabet character a. -/
theorem nonzero_except_hyphen_witness : letterIndex (Char.ofNat 97) ≠ 0 :=
  nonzero_except_hyphen (Char.ofNat 97) (by decide) (by decide)

/-- C10: the loader can produce an item with empty normalized text (here
from an interior blank line), encoding the empty string gives a tensor
whose sequence-length extent is 0, and item access on such an item
returns the encoded empty tensor with its category index without
raising. -/
theorem empty_item_total :
    (name_to_tensor []).shape = [0, 1, n_letters]
      ∧ ([], "English") ∈ (load_data [SourceFile.mk "English" "Smith\n\nJones"]).data
      ∧ getItem (load_data [SourceFile.mk "English" "Smith\n\nJones"]) 1
          = Except.ok (Tensor.mk [0, 1, n_letters] [], Tensor.mk [1] [0]) := by
  refine ⟨by decide, by decide, ?_⟩
  decide

end NameDataset

namespace NameDataset

/-- Inserting a key absent from a dict appends the pair at the end. -/
theorem dictInsert_fresh {α β : Type} [DecidableEq α] (d : List (α × β)) (k : α)
    (v : β) (h : ∀ p ∈ d, p.1 ≠ k) : dictInsert d k v = d ++ [(k, v)] := by
  have hany : d.any (fun p => decide (p.1 = k)) = false := by
    simp only [List.any_eq_false, decide_eq_true_eq]
    exact h
  simp [dictInsert, hany]

/-- The cat2idx built by the load_data fold, when the categories are
pairwise distinct and fresh for the accumulator: each file appends its
(category, index) pair in enumeration order. -/
theorem foldl_processFile_cat2idx (files : List SourceFile) :
    ∀ (k : Nat) (acc : Corpus),
      (∀ f ∈ files, ∀ p ∈ acc.cat2idx, p.1 ≠ f.category) →
      (files.map SourceFile.category).Nodup →
      ((files.enumFrom k).foldl processFile acc).cat2idx =
        acc.cat2idx ++ (files.enumFrom k).map (fun p => (p.2.category, p.1)) := by
  induction files with
  | nil => intro k acc _ _; simp [List.enumFrom]
  | cons f rest ih =>
      intro k acc hfresh hnd
      have hins : (processFile acc (k, f)).cat2idx = acc.cat2idx ++ [(f.category, k)] :=
        dictInsert_fresh acc.cat2idx f.category k
          (fun p hp => hfresh f (by simp) p hp)
      have hnd1 : (SourceFile.category f :: rest.map SourceFile.category).Nodup := by
        simpa using hnd
      rcases List.nodup_cons.mp hnd1 with ⟨hnotin, hnd2⟩
      have hfresh2 : ∀ g ∈ rest, ∀ p ∈ (processFile acc (k, f)).cat2idx,
          p.1 ≠ g.category := by
        intro g hg p hp
        rw [hins] at hp
        rcases List.mem_append.mp hp with hold | hnew
        · exact hfresh g (by simp [hg]) p hold
        · have hpe : p = (f.category, k) := by simpa using hnew
          subst hpe
          intro hcontra
          have hfg : f.category = g.category := hcontra
          apply hnotin
          rw [hfg]
          exact List.mem_map_of_mem SourceFile.category hg
      rw [List.enumFrom_cons, List.foldl_cons, ih (k + 1) _ hfresh2 hnd2, hins]
      simp [List.append_assoc]

/-- The idx2cat built by the load_data fold: the integer keys are always
fresh (the accumulator only holds keys below the running index), so each
file appends its (index, category) pair in enumeration order. -/
theorem foldl_processFile_idx2cat (files : List SourceFile) :
    ∀ (k : Nat) (acc : Corpus),
      (∀ p ∈ acc.idx2cat, p.1 < k) →
      ((files.enumFrom k).foldl processFile acc).idx2cat =
        acc.idx2cat ++ (files.enumFrom k).map (fun p => (p.1, p.2.category)) := by
  induction files with
  | nil => intro k acc _; simp [List.enumFrom]
  | cons f rest ih =>
      intro k acc hlt
      have hins : (processFile acc (k, f)).idx2cat = acc.idx2cat ++ [(k, f.category)] :=
        dictInsert_fresh acc.idx2cat k f.category
          (fun p hp => Nat.ne_of_lt (hlt p hp))
      have hlt2 : ∀ p ∈ (processFile acc (k, f)).idx2cat, p.1 < k + 1 := by
        intro p hp
        rw [hins] at hp
        rcases List.mem_append.mp hp with hold | hnew
        · exact Nat.lt_succ_of_lt (hlt p hold)
        · have : p = (k, f.category) := by simpa using hnew
          subst this
          exact Nat.lt_succ_self k
      rw [List.enumFrom_cons, List.foldl_cons, ih (k + 1) _ hlt2, hins]
      simp [List.append_assoc]

/-- Looking an integer up in an enumFrom-shaped dict finds exactly the
element at the corresponding list position. -/
theorem dictGet_enumFrom {α : Type} [DecidableEq α] (cs : List α) (c : α) :
    ∀ (k i : Nat), dictGet? (cs.enumFrom k) i = some c ↔
      k ≤ i ∧ cs[i - k]? = some c := by
  induction cs with
  | nil => intro k i; simp [List.enumFrom, dictGet?]
  | cons a rest ih =>
      intro k i
      by_cases hk : k = i
      · subst hk
        have hfind : dictGet? ((a :: rest).enumFrom k) k = some a := by
          simp [List.enumFrom_cons, dictGet?, List.find?_cons_of_pos]
        rw [hfind]
        simp
      · have hskip : dictGet? ((a :: rest).enumFrom k) i =
            dictGet? (rest.enumFrom (k + 1)) i := by
          simp [List.enumFrom_cons, dictGet?, List.find?_cons_of_neg, hk]
        rw [hskip, ih (k + 1) i]
        constructor
        · rintro ⟨hle, hget⟩
          refine ⟨by omega, ?_⟩
          have harith : i - k = (i - (k + 1)) + 1 := by omega
          rw [harith, List.getElem?_cons_succ]
          exact hget
        · rintro ⟨hle, hget⟩
          have hlt : k < i := by omega
          refine ⟨by omega, ?_⟩
          have harith : i - k = (i - (k + 1)) + 1 := by omega
          rw [harith, List.getElem?_cons_succ] at hget
          exact hget

/-- Looking a value up in the swapped enumFrom-shaped dict of a
duplicate-free list finds exactly its position. -/
theorem dictGet_enumFrom_swap {α : Type} [DecidableEq α] (cs : List α) (c : α)
    (i : Nat) : ∀ k : Nat, cs.Nodup →
      (dictGet? ((cs.enumFrom k).map (fun p => (p.2, p.1))) c = some i ↔
        k ≤ i ∧ cs[i - k]? = some c) := by
  induction cs with
  | nil => intro k _; simp [List.enumFrom, dictGet?]
  | cons a rest ih =>
      intro k hnd
      rcases List.nodup_cons.mp hnd with ⟨hnotin, hnd2⟩
      by_cases hac : a = c
      · subst hac
        have hfind : dictGet? (((a :: rest).enumFrom k).map (fun p => (p.2, p.1))) a
            = some k := by
          simp [List.enumFrom_cons, dictGet?, List.find?_cons_of_pos]
        rw [hfind]
        constructor
        · rintro h
          have hik : k = i := by simpa using h
          subst hik
          simp
        · rintro ⟨hle, hget⟩
          by_cases hik : i = k
          · subst hik; rfl
          · exfalso
            have harith : i - k = (i - (k + 1)) + 1 := by omega
            rw [harith, List.getElem?_cons_succ] at hget
            exact hnotin (List.getElem?_mem hget)
      · have hskip : dictGet? (((a :: rest).enumFrom k).map (fun p => (p.2, p.1))) c =
            dictGet? ((rest.enumFrom (k + 1)).map (fun p => (p.2, p.1))) c := by
          simp [List.enumFrom_cons, dictGet?, List.find?_cons_of_neg, hac]
        rw [hskip, ih (k + 1) hnd2]
        constructor
        · rintro ⟨hle, hget⟩
          refine ⟨by omega, ?_⟩
          have harith : i - k = (i - (k + 1)) + 1 := by omega
          rw [harith, List.getElem?_cons_succ]
          exact hget
        · rintro ⟨hle, hget⟩
          by_cases hik : i = k
          · subst hik
            simp at hget
            exact absurd hget hac
          · refine ⟨by omega, ?_⟩
            have harith : i - k = (i - (k + 1)) + 1 := by omega
            rw [harith, List.getElem?_cons_succ] at hget
            exact hget

/-- enumFrom commutes with taking the category of each file. -/
theorem enumFrom_map_category (files : List SourceFile) :
    ∀ k : Nat, (files.map SourceFile.category).enumFrom k
      = (files.enumFrom k).map (fun p => (p.1, p.2.category)) := by
  induction files with
  | nil => intro k; rfl
  | cons f rest ih => intro k; simp [List.enumFrom_cons, ih]

end NameDataset

namespace NameDataset

set_option maxRecDepth 40000 in
/-- C6: for a corpus whose file categories are pairwise distinct (the
spec's one file per category), cat2idx holds the (category, index) pairs
and idx2cat the (index, category) pairs in first-seen enumeration order
starting at 0, and the two lookups are mutual inverses; concretely,
loading English.txt (Smith, Jones) then Italian.txt (Rossi) gives
cat2idx {English: 0, Italian: 1}, three items in total, and Rossi
decodes back from its encoding. -/
theorem category_maps_inverse :
    (∀ files : List SourceFile, (files.map SourceFile.category).Nodup →
        (load_data files).cat2idx = (files.enum).map (fun p => (p.2.category, p.1))
      ∧ (load_data files).idx2cat = (files.enum).map (fun p => (p.1, p.2.category))
      ∧ (∀ (c : String) (i : Nat),
          dictGet? (load_data files).cat2idx c = some i
            ↔ dictGet? (load_data files).idx2cat i = some c))
    ∧ (load_data [SourceFile.mk "English" "Smith\nJones",
        SourceFile.mk "Italian" "Rossi"]).cat2idx
        = [("English", 0), ("Italian", 1)]
    ∧ (load_data [SourceFile.mk "English" "Smith\nJones",
        SourceFile.mk "Italian" "Rossi"]).data.length = 3
    ∧ tensor_to_name (name_to_tensor (("Rossi").toList))
        = Except.ok (("Rossi").toList) := by
  refine ⟨?_, by decide, by decide, by decide⟩
  intro files hnd
  have h1 : (load_data files).cat2idx
      = (files.enum).map (fun p => (p.2.category, p.1)) := by
    have h := foldl_processFile_cat2idx files 0 (Corpus.mk [] [] [])
      (by intro f _ p hp; simp at hp) hnd
    simpa [load_data, List.enum] using h
  have h2 : (load_data files).idx2cat
      = (files.enum).map (fun p => (p.1, p.2.category)) := by
    have h := foldl_processFile_idx2cat files 0 (Corpus.mk [] [] [])
      (by intro p hp; simp at hp)
    simpa [load_data, List.enum] using h
  refine ⟨h1, h2, ?_⟩
  intro c i
  have hswap : (files.enum).map (fun p => (p.2.category, p.1))
      = ((files.map SourceFile.category).enumFrom 0).map (fun p => (p.2, p.1)) := by
    rw [enumFrom_map_category files 0, List.map_map]
    rfl
  have henum : (files.enum).map (fun p => (p.1, p.2.category))
      = (files.map SourceFile.category).enumFrom 0 :=
    (enumFrom_map_category files 0).symm
  rw [h1, h2, hswap, henum,
      dictGet_enumFrom_swap (files.map SourceFile.category) c i 0 hnd,
      dictGet_enumFrom (files.map SourceFile.category) c 0 i]

/-- Witness for category_maps_inverse: the inverse-lookup law applied to
the concrete two-file corpus at category Italian and index 1. -/
theorem category_maps_inverse_witness :
    dictGet? (load_data [SourceFile.mk "English" "Smith\nJones",
        SourceFile.mk "Italian" "Rossi"]).cat2idx "Italian" = some 1
      ↔ dictGet? (load_data [SourceFile.mk "English" "Smith\nJones",
        SourceFile.mk "Italian" "Rossi"]).idx2cat 1 = some "Italian" :=
  (category_maps_inverse.1
    [SourceFile.mk "English" "Smith\nJones", SourceFile.mk "Italian" "Rossi"]
    (by decide)).2.2 "Italian" 1

end NameDataset

namespace NameDataset

/-- A one-hot row has the alphabet's extent. -/
theorem length_oneHot (k : Nat) : (oneHot k).length = n_letters := by
  simp [oneHot]

/-- The flat data of an encoded name has one alphabet-sized row per
character. -/
theorem length_encoded (t : List Char) :
    ((t.map (fun c => oneHot (letterIndex c))).flatten).length
      = t.length * n_letters := by
  rw [List.length_flatten, List.map_map]
  have hconst : t.map (List.length ∘ fun c => oneHot (letterIndex c))
      = t.map (fun _ => n_letters) :=
    List.map_congr_left (fun c _ => length_oneHot (letterIndex c))
  rw [hconst, List.map_const', List.sum_replicate, smul_eq_mul]

/-- Extracting the i-th aligned chunk from the concatenation of
equal-length lists gives the i-th list. -/
theorem flatten_extract {n : Nat} :
    ∀ (l : List (List Nat)) (i : Nat), (∀ x ∈ l, x.length = n) →
      i < l.length → ((l.flatten).drop (i * n)).take n = l.getD i [] := by
  intro l
  induction l with
  | nil => intro i _ hi; simp at hi
  | cons a rest ih =>
      intro i h hi
      have ha : a.length = n := h a (by simp)
      cases i with
      | zero =>
          rw [Nat.zero_mul, List.drop_zero, List.flatten_cons, ← ha,
            List.take_left, List.getD_cons_zero]
      | succ j =>
          have hdrop : (((a :: rest).flatten).drop ((j + 1) * n))
              = (rest.flatten).drop (j * n) := by
            rw [List.flatten_cons, Nat.succ_mul, Nat.add_comm, ← ha,
              List.drop_add, List.drop_left]
          rw [hdrop, List.getD_cons_succ]
          exact ih j (fun x hx => h x (by simp [hx])) (by simpa using hi)

/-- getD through a map, for an in-range position. -/
theorem getD_map_of_lt {α β : Type} (f : α → β) (l : List α) (i : Nat)
    (hi : i < l.length) (d : α) (d2 : β) :
    (l.map f).getD i d2 = f (l.getD i d) := by
  have h2 : i < (l.map f).length := by simpa using hi
  rw [List.getD_eq_getElem _ _ h2, List.getD_eq_getElem _ _ hi, List.getElem_map]

/-- An in-range getD is a member of the list. -/
theorem getD_mem_of_lt {α : Type} (l : List α) (i : Nat) (hi : i < l.length)
    (d : α) : l.getD i d ∈ l := by
  rw [List.getD_eq_getElem _ _ hi]
  exact List.getElem_mem hi

/-- Every member is bounded by the running foldr maximum. -/
theorem le_foldr_max {l : List Nat} {x : Nat} (h : x ∈ l) :
    x ≤ l.foldr max 0 := by
  induction l with
  | nil => simp at h
  | cons a r ih =>
      show x ≤ max a (r.foldr max 0)
      rcases List.mem_cons.mp h with rfl | hr
      · exact Nat.le_max_left _ _
      · exact Nat.le_trans (ih hr) (Nat.le_max_right _ _)

set_option maxRecDepth 100000 in
/-- torch.argmax recovers the hot position of an in-range one-hot row. -/
theorem argmaxFirst_oneHot :
    ∀ k ∈ List.range n_letters, argmaxFirst (oneHot k) = k := by decide

set_option maxRecDepth 8000 in
/-- Encoding always lands inside the alphabet's extent. -/
theorem letterIndex_lt : ∀ c ∈ all_letters, letterIndex c < n_letters := by
  decide

set_option maxRecDepth 8000 in
/-- Indexing the alphabet at an alphabet character's code gives the
character back. -/
theorem getElem_letterIndex :
    ∀ c ∈ all_letters, all_letters[letterIndex c]? = some c := by decide

/-- Decoding the codes of in-alphabet characters succeeds with the
characters themselves. -/
theorem decodeIndices_map_letterIndex (t : List Char)
    (h : ∀ c ∈ t, c ∈ all_letters) :
    decodeIndices (t.map letterIndex) = Except.ok t := by
  induction t with
  | nil => rfl
  | cons c rest ih =>
      have hc : all_letters[letterIndex c]? = some c :=
        getElem_letterIndex c (h c (by simp))
      simp [decodeIndices, hc, ih (fun x hx => h x (by simp [hx])), Except.map]

/-- The argmax rows of a tensor holding the concatenated one-hot rows of
a text are exactly those rows, whatever the leading shape entries are, as
long as the last extent is the alphabet's. -/
theorem rows_encoded (sh : List Nat) (t : List Char)
    (hsh : sh.getLastD 0 = n_letters) :
    rows ⟨sh, (t.map (fun c => oneHot (letterIndex c))).flatten⟩
      = t.map (fun c => oneHot (letterIndex c)) := by
  have hdiv : ((t.map (fun c => oneHot (letterIndex c))).flatten).length / n_letters
      = t.length := by
    rw [length_encoded]
    exact Nat.mul_div_cancel _ (by decide)
  have hrows_eq : rows ⟨sh, (t.map (fun c => oneHot (letterIndex c))).flatten⟩
      = (List.range t.length).map
          (fun r => (((t.map (fun c => oneHot (letterIndex c))).flatten).drop
            (r * n_letters)).take n_letters) := by
    simp only [rows]
    rw [hsh, hdiv]
  rw [hrows_eq]
  apply List.ext_getElem
  · simp
  · intro i h1 h2
    have hit : i < t.length := by simpa using h2
    rw [List.getElem_map, List.getElem_range]
    have hx := flatten_extract (t.map (fun c => oneHot (letterIndex c))) i
      (by
        intro x hx
        rcases List.mem_map.mp hx with ⟨c, _, rfl⟩
        exact length_oneHot (letterIndex c))
      (by simpa using hit)
    rw [hx, List.getD_eq_getElem _ _ h2, List.getElem_map]

/-- Decoding a tensor that holds the concatenated one-hot rows of an
in-alphabet text returns the text. -/
theorem tensor_to_name_encoded (sh : List Nat) (t : List Char)
    (hsh : sh.getLastD 0 = n_letters) (h : ∀ c ∈ t, c ∈ all_letters) :
    tensor_to_name ⟨sh, (t.map (fun c => oneHot (letterIndex c))).flatten⟩
      = Except.ok t := by
  rw [tensor_to_name, rows_encoded sh t hsh, List.map_map]
  have hmm : t.map (argmaxFirst ∘ fun c => oneHot (letterIndex c))
      = t.map letterIndex := by
    apply List.map_congr_left
    intro c hc
    exact argmaxFirst_oneHot (letterIndex c)
      (List.mem_range.mpr (letterIndex_lt c (h c hc)))
  rw [hmm, decodeIndices_map_letterIndex t h]

end NameDataset

namespace NameDataset

/-- C5 (amended): for a batch built from at least two texts over the
alphabet whose longest text has at least two characters (so that the bare
squeeze() keeps the batch and sequence axes), decoding the first
original-length positions of the i-th padded sequence recovers the i-th
text exactly. -/
theorem batch_roundtrip (texts : List (List Char)) (i : Nat)
    (hB : 2 ≤ texts.length)
    (hL : 2 ≤ (texts.map List.length).foldr max 0)
    (halpha : ∀ t ∈ texts, ∀ c ∈ t, c ∈ all_letters)
    (hi : i < texts.length) :
    tensor_to_name (slice0 (index0
        (collate_fn (texts.map (fun t => (name_to_tensor t, Tensor.mk [1] [0])))).1 i)
      (texts.getD i []).length)
      = Except.ok (texts.getD i []) := by
  obtain ⟨t0, ts, rfl⟩ : ∃ t0 ts, texts = t0 :: ts := by
    cases texts with
    | nil => simp at hB
    | cons a l => exact ⟨a, l, rfl⟩
  set maxL := ((t0 :: ts).map List.length).foldr max 0 with hmaxL
  have hnames : ((t0 :: ts).map (fun t => (name_to_tensor t, Tensor.mk [1] [0]))).map
      (fun p => p.1) = (t0 :: ts).map name_to_tensor := by
    rw [List.map_map]
    rfl
  have hheads : (((t0 :: ts).map name_to_tensor).map (fun t => t.shape.headD 0))
      = (t0 :: ts).map List.length := by
    rw [List.map_map]
    rfl
  have htrail : ((((t0 :: ts).map name_to_tensor).headD (Tensor.mk [] [])).shape.tail)
      = [1, n_letters] := rfl
  have hprod : ([1, n_letters] : List Nat).prod = n_letters := by simp
  have hsq : squeeze (pad_sequence ((t0 :: ts).map name_to_tensor))
      = Tensor.mk [(t0 :: ts).length, maxL, n_letters]
          (((t0 :: ts).map (fun t =>
             (t.map (fun c => oneHot (letterIndex c))).flatten
               ++ List.replicate ((maxL - t.length) * n_letters) NULL_IDX)).flatten) := by
    have hBne : ((((t0 :: ts).length : Nat)) != 1) = true := by
      simp only [bne_iff_ne, ne_eq]
      omega
    have hLne : ((maxL : Nat) != 1) = true := by
      simp only [bne_iff_ne, ne_eq]
      omega
    have hNne : ((n_letters : Nat) != 1) = true := by decide
    simp only [pad_sequence, squeeze, hheads, htrail, hprod, ← hmaxL, List.length_map]
    congr 1
    · simp [List.filter_cons, hBne, hLne, hNne]
      rintro rfl
      simp at hB
    · rw [List.map_map]
      exact congrArg List.flatten (List.map_congr_left (fun t _ => rfl))
  have hblocks_len : ∀ x ∈ (t0 :: ts).map (fun t =>
      (t.map (fun c => oneHot (letterIndex c))).flatten
        ++ List.replicate ((maxL - t.length) * n_letters) NULL_IDX),
      x.length = maxL * n_letters := by
    intro x hx
    rcases List.mem_map.mp hx with ⟨t, ht, rfl⟩
    have hle : t.length ≤ maxL := le_foldr_max (List.mem_map_of_mem List.length ht)
    rw [List.length_append, length_encoded, List.length_replicate,
      ← Nat.add_mul, Nat.add_sub_cancel' hle]
  have hidx : index0 (squeeze (pad_sequence ((t0 :: ts).map name_to_tensor))) i
      = Tensor.mk [maxL, n_letters]
          (((t0 :: ts).map (fun t =>
             (t.map (fun c => oneHot (letterIndex c))).flatten
               ++ List.replicate ((maxL - t.length) * n_letters) NULL_IDX)).getD i []) := by
    rw [hsq]
    simp only [index0]
    congr 1
    have hp2 : (([(t0 :: ts).length, maxL, n_letters] : List Nat).tail).prod
        = maxL * n_letters := by simp
    rw [hp2]
    exact flatten_extract _ i hblocks_len (by simpa using hi)
  have hblock_i : (((t0 :: ts).map (fun t =>
      (t.map (fun c => oneHot (letterIndex c))).flatten
        ++ List.replicate ((maxL - t.length) * n_letters) NULL_IDX)).getD i [])
      = (((t0 :: ts).getD i []).map (fun c => oneHot (letterIndex c))).flatten
          ++ List.replicate ((maxL - ((t0 :: ts).getD i []).length) * n_letters)
            NULL_IDX :=
    getD_map_of_lt _ _ i hi [] []
  have hslice : slice0 (Tensor.mk [maxL, n_letters]
        ((((t0 :: ts).getD i []).map (fun c => oneHot (letterIndex c))).flatten
          ++ List.replicate ((maxL - ((t0 :: ts).getD i []).length) * n_letters)
            NULL_IDX))
        ((t0 :: ts).getD i []).length
      = Tensor.mk [min ((t0 :: ts).getD i []).length maxL, n_letters]
          ((((t0 :: ts).getD i []).map (fun c => oneHot (letterIndex c))).flatten) := by
    simp only [slice0]
    congr 1
    have hp1 : (([maxL, n_letters] : List Nat).tail).prod = n_letters := by simp
    rw [hp1, ← length_encoded ((t0 :: ts).getD i []), List.take_left]
  have hmem : (t0 :: ts).getD i [] ∈ (t0 :: ts) := getD_mem_of_lt _ i hi []
  calc tensor_to_name (slice0 (index0
        (collate_fn ((t0 :: ts).map (fun t =>
          (name_to_tensor t, Tensor.mk [1] [0])))).1 i)
        ((t0 :: ts).getD i []).length)
      = tensor_to_name (slice0 (index0
          (squeeze (pad_sequence ((t0 :: ts).map name_to_tensor))) i)
          ((t0 :: ts).getD i []).length) := by
        simp only [collate_fn]
        rw [hnames]
    _ = Except.ok ((t0 :: ts).getD i []) := by
        rw [hidx, hblock_i, hslice]
        exact tensor_to_name_encoded _ _ rfl (halpha _ hmem)

end NameDataset

namespace NameDataset

set_option maxRecDepth 200000 in
/-- Witness for batch_roundtrip on the batch built from Abl and Zz: the
padded batch keeps shape (2, 3, n_letters), decoding the first two
positions of the second sequence gives Zz back, and the full second
sequence decodes to Zz followed by the sentinel hyphen, so its third
position holds the sentinel. -/
theorem batch_roundtrip_witness :
    tensor_to_name (slice0 (index0
        (collate_fn ([("Abl").toList, ("Zz").toList].map
          (fun t => (name_to_tensor t, Tensor.mk [1] [0])))).1 1)
        (([("Abl").toList, ("Zz").toList].getD 1 []).length))
      = Except.ok ([("Abl").toList, ("Zz").toList].getD 1 [])
    ∧ (collate_fn ([("Abl").toList, ("Zz").toList].map
        (fun t => (name_to_tensor t, Tensor.mk [1] [0])))).1.shape
      = [2, 3, n_letters]
    ∧ tensor_to_name (index0
        (collate_fn ([("Abl").toList, ("Zz").toList].map
          (fun t => (name_to_tensor t, Tensor.mk [1] [0])))).1 1)
      = Except.ok (("Zz-").toList) :=
  ⟨batch_roundtrip [("Abl").toList, ("Zz").toList] 1 (by decide) (by decide)
    (by decide) (by decide), by decide, by decide⟩

set_option maxRecDepth 200000 in
/-- C5 counterexample: in the batch built from the texts ab and 1, the
digit 1 is outside the alphabet, so decoding the first position of the
second padded sequence yields the sentinel hyphen, not the original
text 1: the unrestricted round-trip law fails. -/
theorem batch_roundtrip_counterexample :
    tensor_to_name (slice0 (index0 (collate_fn
        [(name_to_tensor (("ab").toList), Tensor.mk [1] [0]),
         (name_to_tensor (("1").toList), Tensor.mk [1] [0])]).1 1) 1)
      = Except.ok [Char.ofNat 45]
    ∧ Except.ok [Char.ofNat 45]
        ≠ (Except.ok (("1").toList) : Except String (List Char)) := by
  refine ⟨?_, by decide⟩
  decide

end NameDataset
